import Mathlib

/-!
Shallow embedding of the cranelift legalization pass
(src/cranelift-codegen/src/legalizer/heap.rs and
src/cranelift-codegen/src/legalizer/mod.rs) and proofs about it.

Machine integers are modelled as `Nat` reduced modulo `2^w` for the relevant
bit width `w`; signed 64-bit immediates are modelled as `Int` (`as_i64`
reinterprets a u64 bit pattern).  Emitted code is modelled as explicit data:
straight-line value code as a list of emitted instructions whose operands are
expression trees (a builder call both appends the instruction and returns the
value it defines, mirroring `pos.ins().xxx(...)`), and control flow as a list
of blocks, each a list of block-level instructions, run by a fueled executor.
-/

namespace Cranelift

/-- Integer condition codes used by the legalizer (`ir::condcodes::IntCC`). -/
inductive IntCC where
  | UnsignedGreaterThanOrEqual
  | UnsignedGreaterThan
  | Equal
deriving DecidableEq, Repr

/-- Trap codes used by the legalizer (`ir::TrapCode`). -/
inductive TrapCode where
  | HeapOutOfBounds
  | User (n : Nat)
deriving DecidableEq, Repr

/-- Reinterpret a u64 bit pattern as a two's-complement i64, as the Rust cast
`x as i64` does for `x : u64`. -/
def as_i64 (u : Nat) : Int :=
  if u < 2 ^ 63 then (u : Int) else (u : Int) - 2 ^ 64

/-- A value in emitted straight-line code.  `operand i` is the i-th value
operand of the instruction being legalized (the heap offset for `heap_addr`,
the controlling argument for traps and branch tables, and so on); the other
constructors are results of emitted instructions, recorded as expression
trees by the builder helpers below. -/
inductive Val where
  | operand (i : Nat)
  | globalValue (ty gv : Nat)
  | iconst (ty : Nat) (imm : Int)
  | icmp (cc : IntCC) (x y : Val)
  | icmpImm (cc : IntCC) (x : Val) (imm : Int)
  | iaddImm (x : Val) (imm : Int)
  | iaddCoutSum (x y : Val)
  | iaddCoutCarry (x y : Val)
  | uextend (ty : Nat) (x : Val)
  | iadd (x y : Val)
  | getPinnedReg (ty : Nat)
  | jumpTableBase (ty : Nat) (table : List Nat)
  | jumpTableEntry (x base : Val) (entrySize : Nat) (table : List Nat)
deriving DecidableEq, Repr

/-- An instruction emitted into the current block by a heap expander.
`replaceWith v` records that the original instruction was replaced in place
(`pos.func.dfg.replace(inst)`) by the instruction computing `v`. -/
inductive EmInst where
  | globalValue (ty gv : Nat)
  | iconst (ty : Nat) (imm : Int)
  | icmp (cc : IntCC) (x y : Val)
  | icmpImm (cc : IntCC) (x : Val) (imm : Int)
  | iaddImm (x : Val) (imm : Int)
  | iaddCout (x y : Val)
  | trapnz (cond : Val) (code : TrapCode)
  | trap (code : TrapCode)
  | uextend (ty : Nat) (x : Val)
  | getPinnedReg (ty : Nat)
  | replaceWith (v : Val)
deriving DecidableEq, Repr

/-- Builder helper mirroring `pos.ins().global_value(ty, gv)`. -/
def ins_global_value (b : List EmInst) (ty gv : Nat) : List EmInst × Val :=
  (b ++ [.globalValue ty gv], .globalValue ty gv)

/-- Builder helper mirroring `pos.ins().iconst(ty, imm)`. -/
def ins_iconst (b : List EmInst) (ty : Nat) (imm : Int) : List EmInst × Val :=
  (b ++ [.iconst ty imm], .iconst ty imm)

/-- Builder helper mirroring `pos.ins().icmp(cc, x, y)`. -/
def ins_icmp (b : List EmInst) (cc : IntCC) (x y : Val) : List EmInst × Val :=
  (b ++ [.icmp cc x y], .icmp cc x y)

/-- Builder helper mirroring `pos.ins().icmp_imm(cc, x, imm)`. -/
def ins_icmp_imm (b : List EmInst) (cc : IntCC) (x : Val) (imm : Int) : List EmInst × Val :=
  (b ++ [.icmpImm cc x imm], .icmpImm cc x imm)

/-- Builder helper mirroring `pos.ins().iadd_imm(x, imm)`. -/
def ins_iadd_imm (b : List EmInst) (x : Val) (imm : Int) : List EmInst × Val :=
  (b ++ [.iaddImm x imm], .iaddImm x imm)

/-- Builder helper mirroring `pos.ins().iadd_cout(x, y)`, which defines two
results: the wrapped sum and the carry-out flag. -/
def ins_iadd_cout (b : List EmInst) (x y : Val) : List EmInst × (Val × Val) :=
  (b ++ [.iaddCout x y], (.iaddCoutSum x y, .iaddCoutCarry x y))

/-- Builder helper mirroring `pos.ins().trapnz(cond, code)`. -/
def ins_trapnz (b : List EmInst) (cond : Val) (code : TrapCode) : List EmInst :=
  b ++ [.trapnz cond code]

/-- Builder helper mirroring `pos.ins().trap(code)`. -/
def ins_trap (b : List EmInst) (code : TrapCode) : List EmInst :=
  b ++ [.trap code]

/-- Builder helper mirroring `pos.ins().uextend(ty, x)`. -/
def ins_uextend (b : List EmInst) (ty : Nat) (x : Val) : List EmInst × Val :=
  (b ++ [.uextend ty x], .uextend ty x)

/-- Builder helper mirroring `pos.ins().get_pinned_reg(ty)`. -/
def ins_get_pinned_reg (b : List EmInst) (ty : Nat) : List EmInst × Val :=
  (b ++ [.getPinnedReg ty], .getPinnedReg ty)

/-- Builder helper mirroring `pos.func.dfg.replace(inst).xxx(...)`. -/
def ins_replace (b : List EmInst) (v : Val) : List EmInst :=
  b ++ [.replaceWith v]

/-- The two ISA flags read by `compute_addr`. -/
structure IsaFlags where
  enable_pinned_reg : Bool
  use_pinned_reg_as_heap_base : Bool
deriving DecidableEq, Repr

/-- Evaluation of a condition code on width-w unsigned values. -/
def evalCC : IntCC → Nat → Nat → Bool
  | .UnsignedGreaterThanOrEqual, x, y => y ≤ x
  | .UnsignedGreaterThan, x, y => y < x
  | .Equal, x, y => x = y

/-- Interpret an immediate in width w (two's-complement truncation). -/
def immVal (w : Nat) (imm : Int) : Nat :=
  (imm % ((2 ^ w : Nat) : Int)).toNat

/-- Evaluate a value at width `w`.  `gv` gives the runtime value of each
global value, `ops` the runtime value of each operand of the legalized
instruction.  Comparison results are 1 or 0.  `uextend` preserves the
numeric value (zero extension to a wider type); `get_pinned_reg` reads a
machine register whose contents no verified claim inspects, modelled as 0.
The `jump_table_base` and `jump_table_entry` cases are modelled from the
spec (the implementations are not under src/): block addresses are modelled
by block ids, the table base address by 0, so a table entry holds the id of
its destination block and `base + entry` is that id. -/
def evalVal (w : Nat) (gv ops : Nat → Nat) : Val → Nat
  | .operand i => ops i % 2 ^ w
  | .globalValue _ g => gv g % 2 ^ w
  | .iconst _ imm => immVal w imm
  | .icmp cc x y => if evalCC cc (evalVal w gv ops x) (evalVal w gv ops y) then 1 else 0
  | .icmpImm cc x imm => if evalCC cc (evalVal w gv ops x) (immVal w imm) then 1 else 0
  | .iaddImm x imm => (((evalVal w gv ops x : Int) + imm) % ((2 ^ w : Nat) : Int)).toNat
  | .iaddCoutSum x y => (evalVal w gv ops x + evalVal w gv ops y) % 2 ^ w
  | .iaddCoutCarry x y => if 2 ^ w ≤ evalVal w gv ops x + evalVal w gv ops y then 1 else 0
  | .uextend _ x => evalVal w gv ops x
  | .iadd x y => (evalVal w gv ops x + evalVal w gv ops y) % 2 ^ w
  | .getPinnedReg _ => 0
  | .jumpTableBase _ _ => 0
  | .jumpTableEntry x _ _ table => table.getD (evalVal w gv ops x) 0

/-- Whether a single emitted instruction raises a trap when reached. -/
def trapTriggered (w : Nat) (gv ops : Nat → Nat) : EmInst → Bool
  | .trapnz cond _ => evalVal w gv ops cond ≠ 0
  | .trap _ => true
  | _ => false

/-- Whether executing an emitted straight-line sequence raises a trap.  A
triggered trap aborts execution, so for the trap / no-trap outcome this is
simply: some instruction in the list triggers. -/
def trapsIn (w : Nat) (gv ops : Nat → Nat) (l : List EmInst) : Bool :=
  l.any (trapTriggered w gv ops)

/-- Embedding of `compute_addr` (heap.rs lines 150-186): convert the offset
to the address type if needed, obtain the heap base from the pinned register
or the base global value, and replace the original instruction with
`iadd base offset`.  The `values_labels` debug-metadata bookkeeping is not
modelled. -/
def compute_addr (offset_ty addr_ty : Nat) (base_gv : Nat) (flags : IsaFlags)
    (ptr_ty : Nat) (b : List EmInst) : List EmInst :=
  let offset : Val := .operand 0
  let (b, offset) :=
    if offset_ty ≠ addr_ty then ins_uextend b addr_ty offset
    else (b, offset)
  let (b, base) :=
    if flags.enable_pinned_reg && flags.use_pinned_reg_as_heap_base then
      ins_get_pinned_reg b ptr_ty
    else
      ins_global_value b addr_ty base_gv
  ins_replace b (.iadd base offset)

/-- Embedding of `dynamic_addr` (heap.rs lines 51-94).  `access_size` is the
u32 immediate widened to u64, `min_size` the heap minimum size, `bound_gv`
the bound global value.  Operand 0 is the offset. -/
def dynamic_addr (offset_ty addr_ty : Nat) (access_size min_size : Nat)
    (bound_gv base_gv : Nat) (flags : IsaFlags) (ptr_ty : Nat) : List EmInst :=
  let b : List EmInst := []
  let (b, bound) := ins_global_value b offset_ty bound_gv
  let (b, oob) :=
    if access_size = 1 then
      -- offset > bound - 1 is the same as offset >= bound.
      ins_icmp b .UnsignedGreaterThanOrEqual (.operand 0) bound
    else if access_size ≤ min_size then
      -- bound >= min_size, so bound - access_size cannot wrap.
      let (b, adj_bound) := ins_iadd_imm b bound (-(as_i64 access_size))
      ins_icmp b .UnsignedGreaterThan (.operand 0) adj_bound
    else
      -- overflow check for the adjusted offset.
      let (b, access_size_val) := ins_iconst b offset_ty (as_i64 access_size)
      let (b, adj) := ins_iadd_cout b (.operand 0) access_size_val
      let b := ins_trapnz b adj.2 .HeapOutOfBounds
      ins_icmp b .UnsignedGreaterThan adj.1 bound
  let b := ins_trapnz b oob .HeapOutOfBounds
  compute_addr offset_ty addr_ty base_gv flags ptr_ty b

/-- Result of the static heap expansion: the instructions emitted into (or
replacing) the original block position, whether the block was split right
after the emitted trap, the list of newly created blocks, and the blocks
whose control-flow edges were recomputed. -/
structure StaticAddrResult where
  insts : List EmInst
  split_after_trap : Bool
  new_ebbs : List Nat
  cfg_recomputed : List Nat
deriving DecidableEq, Repr

/-- Embedding of `static_addr` (heap.rs lines 97-147).  `bound` is the
compile-time bound (u64), `curr_ebb` the block holding the instruction,
`next_ebb` the id `make_ebb` would allocate. -/
def static_addr (offset_ty addr_ty : Nat) (access_size bound : Nat)
    (base_gv : Nat) (flags : IsaFlags) (ptr_ty : Nat)
    (curr_ebb next_ebb : Nat) : StaticAddrResult :=
  if access_size > bound then
    -- Always out of bounds: trap, dummy zero address, split the block.
    let b := ins_trap [] .HeapOutOfBounds
    let b := ins_replace b (.iconst addr_ty 0)
    { insts := b
      split_after_trap := true
      new_ebbs := [next_ebb]
      cfg_recomputed := [curr_ebb, next_ebb] }
  else
    -- Check offset > limit, which is now known non-negative.
    let limit := bound - access_size
    let b : List EmInst := []
    -- The check may be omitted for 32-bit offsets with a 4 GB+ bound.
    let b :=
      if offset_ty ≠ 32 ∨ limit < 0xffffffff then
        let (b, oob) :=
          if limit % 2 = 1 then
            -- The source tests offset >= limit - 1 when limit is odd.
            ins_icmp_imm b .UnsignedGreaterThanOrEqual (.operand 0) (as_i64 limit - 1)
          else
            ins_icmp_imm b .UnsignedGreaterThan (.operand 0) (as_i64 limit)
        ins_trapnz b oob .HeapOutOfBounds
      else b
    { insts := compute_addr offset_ty addr_ty base_gv flags ptr_ty b
      split_after_trap := false
      new_ebbs := []
      cfg_recomputed := [] }

/-- The emitted instruction list of the dynamic expansion at the standard
instantiation used by the semantic theorems: equal offset and address types
of width `w`, bound global value 0, base global value 1, no pinned register. -/
def dynInsts (w access_size min_size : Nat) : List EmInst :=
  dynamic_addr w w access_size min_size 0 1 ⟨false, false⟩ w

/-- Whether the dynamic expansion traps for offset `O` when the runtime bound
global evaluates to `B`. -/
def dynamicTraps (w access_size min_size B O : Nat) : Bool :=
  trapsIn w (fun _ => B) (fun _ => O) (dynInsts w access_size min_size)

/-- Whether the static expansion traps for offset `O`. -/
def staticTraps (offset_ty access_size bound O : Nat) : Bool :=
  trapsIn offset_ty (fun _ => 0) (fun _ => O)
    (static_addr offset_ty offset_ty access_size bound 1 ⟨false, false⟩ offset_ty 0 1).insts

/-- An emitted instruction is an overflow-detecting instruction exactly when
it is `iadd_cout`. -/
def isOverflowInst : EmInst → Bool
  | .iaddCout _ _ => true
  | _ => false

/-- An emitted instruction emitting the bound subtraction (`iadd_imm`). -/
def isBoundSub : EmInst → Bool
  | .iaddImm _ _ => true
  | _ => false

/-- An emitted comparison instruction. -/
def isCompare : EmInst → Bool
  | .icmp _ _ _ => true
  | .icmpImm _ _ _ => true
  | _ => false

/-- The final address computation of a heap expansion: the replacement of
the original instruction by `iadd base offset`. -/
def isAddrComputation : EmInst → Bool
  | .replaceWith (.iadd _ _) => true
  | _ => false

/-- Block-level instructions emitted by the control-flow expanders.  `pureV`
records a value-producing instruction placed in the block (its value is the
recorded expression tree); the others transfer control or trap.  The
`indirectJumpTableBr` semantics (branch through a computed table-entry
address) is modelled from the spec, the implementation being outside src/. -/
inductive BInst where
  | pureV (v : Val)
  | brnz (cond : Val) (dest : Nat) (args : List Val)
  | brz (cond : Val) (dest : Nat) (args : List Val)
  | jump (dest : Nat) (args : List Val)
  | trapB (code : TrapCode)
  | indirectJumpTableBr (addr : Val) (table : List Nat)
deriving DecidableEq, Repr

/-- Outcome of running an expansion fragment: control left the fragment to
block `ebb` carrying `args`, a trap was raised, or execution could not
proceed (never the case for the fragments proved about below). -/
inductive Outcome where
  | outside (ebb : Nat) (args : List Nat)
  | trapOut (code : TrapCode)
  | stuck
deriving DecidableEq, Repr

/-- Result of executing the instructions of one block. -/
inductive StepRes where
  | goto (dest : Nat) (args : List Nat)
  | trapped (code : TrapCode)
  | fellOff
deriving DecidableEq, Repr

/-- Execute the instruction list of one block. -/
def execBlockInsts (w : Nat) (gv ops : Nat → Nat) : List BInst → StepRes
  | [] => .fellOff
  | .pureV _ :: rest => execBlockInsts w gv ops rest
  | .brnz cond dest args :: rest =>
    if evalVal w gv ops cond ≠ 0 then .goto dest (args.map (evalVal w gv ops))
    else execBlockInsts w gv ops rest
  | .brz cond dest args :: rest =>
    if evalVal w gv ops cond = 0 then .goto dest (args.map (evalVal w gv ops))
    else execBlockInsts w gv ops rest
  | .jump dest args :: _ => .goto dest (args.map (evalVal w gv ops))
  | .trapB code :: _ => .trapped code
  | .indirectJumpTableBr addr _ :: _ => .goto (evalVal w gv ops addr) []

/-- Look up a block in a fragment by id. -/
def findEbb : List (Nat × List BInst) → Nat → Option (List BInst)
  | [], _ => none
  | (e, insts) :: rest, ebb => if e = ebb then some insts else findEbb rest ebb

mutual

/-- Run a fragment from block `ebb` with block arguments `args`.  A block
outside the fragment is where the rewritten code hands control back. -/
def execFrag (w : Nat) (gv ops : Nat → Nat) (frag : List (Nat × List BInst)) :
    Nat → Nat → List Nat → Outcome
  | fuel, ebb, args =>
    match findEbb frag ebb with
    | none => .outside ebb args
    | some insts =>
      match fuel with
      | 0 => .stuck
      | fuel + 1 => execFromInsts w gv ops frag fuel insts

/-- Run the given instruction list, then continue through the fragment. -/
def execFromInsts (w : Nat) (gv ops : Nat → Nat) (frag : List (Nat × List BInst)) :
    Nat → List BInst → Outcome
  | fuel, insts =>
    match execBlockInsts w gv ops insts with
    | .fellOff => .stuck
    | .trapped code => .trapOut code
    | .goto dest args => execFrag w gv ops frag fuel dest args

end

/-- An expansion of `br_table`: the rewritten fragment (original block first),
the newly created blocks, and the blocks whose edges were recomputed. -/
structure BrTableExpansion where
  frag : List (Nat × List BInst)
  new_ebbs : List Nat
  cfg_recomputed : List Nat
deriving DecidableEq, Repr

/-- Embedding of `expand_br_table_jt` (mod.rs lines 280-349).  Operand 0 is
the index; `jt` is the jump table contents, `default_ebb` the default
destination, `old_ebb` the block holding the instruction, `next_ebb` the id
`make_ebb` allocates for the fallthrough block. -/
def expand_br_table_jt (jt : List Nat) (default_ebb old_ebb next_ebb : Nat)
    (offset_ty ptr_ty : Nat) : BrTableExpansion :=
  let jump_table_ebb := next_ebb
  let table_size := jt.length
  let oob := Val.icmpImm .UnsignedGreaterThanOrEqual (.operand 0) (table_size : Int)
  let arg : Val := .operand 0
  let (extendInsts, arg) :=
    if offset_ty = ptr_ty then ([], arg)
    else ([BInst.pureV (.uextend ptr_ty arg)], Val.uextend ptr_ty arg)
  let base_addr := Val.jumpTableBase ptr_ty jt
  let entry := Val.jumpTableEntry arg base_addr 4 jt
  let addr := Val.iadd base_addr entry
  { frag :=
      [(old_ebb, [.pureV oob, .brnz oob default_ebb [], .jump jump_table_ebb []]),
       (jump_table_ebb,
        extendInsts ++
          [.pureV base_addr, .pureV entry, .pureV addr, .indirectJumpTableBr addr jt])]
    new_ebbs := [jump_table_ebb]
    cfg_recomputed := [old_ebb, jump_table_ebb] }

/-- The chain of compare-and-branch blocks built by the loop of
`expand_br_table_conds` (mod.rs lines 385-397), starting at entry index `k`:
returns the instructions emitted into the current block and the contents of
the `cond_failed_ebb` blocks filled by later iterations.  Well-formed calls
have one fewer `cond_failed_ebb` id than remaining destinations (none when
no destination remains). -/
def condsChain (k : Nat) : List Nat → List Nat → Nat → List BInst × List (Nat × List BInst)
  | [], _, default_ebb => ([.jump default_ebb []], [])
  | dest :: rest, cf :: cfs, default_ebb =>
    let t := Val.icmpImm .Equal (.operand 0) (k : Int)
    let next := condsChain (k + 1) rest cfs default_ebb
    ([.pureV t, .brnz t dest [], .jump cf []], (cf, next.1) :: next.2)
  | dest :: _, [], default_ebb =>
    -- last table entry: no fallthrough block, the default jump follows.
    let t := Val.icmpImm .Equal (.operand 0) (k : Int)
    ([.pureV t, .brnz t dest [], .jump default_ebb []], [])

/-- Embedding of `expand_br_table_conds` (mod.rs lines 352-404). -/
def expand_br_table_conds (jt : List Nat) (default_ebb old_ebb next_ebb : Nat) :
    BrTableExpansion :=
  let table_size := jt.length
  let cond_failed_ebb : List Nat :=
    if table_size ≥ 1 then (List.range (table_size - 1)).map (fun i => next_ebb + i)
    else []
  let c := condsChain 0 jt cond_failed_ebb default_ebb
  { frag := (old_ebb, c.1) :: c.2
    new_ebbs := cond_failed_ebb
    cfg_recomputed := old_ebb :: cond_failed_ebb }

/-- Destination selected by the jump-table form, by running its fragment. -/
def brTableJtDest (w : Nat) (jt : List Nat) (default_ebb old_ebb next_ebb : Nat)
    (idx : Nat) : Outcome :=
  execFrag w (fun _ => 0) (fun _ => idx)
    (expand_br_table_jt jt default_ebb old_ebb next_ebb w w).frag
    (jt.length + 2) old_ebb []

/-- Destination selected by the linear-chain form, by running its fragment. -/
def brTableCondsDest (w : Nat) (jt : List Nat) (default_ebb old_ebb next_ebb : Nat)
    (idx : Nat) : Outcome :=
  execFrag w (fun _ => 0) (fun _ => idx)
    (expand_br_table_conds jt default_ebb old_ebb next_ebb).frag
    (jt.length + 2) old_ebb []

/-- Reference destination of a compare chain starting at index `k`. -/
def chainTarget (idx : Nat) : Nat → List Nat → Nat → Nat
  | _, [], default_ebb => default_ebb
  | k, dest :: rest, default_ebb =>
    if idx = k then dest else chainTarget idx (k + 1) rest default_ebb

/-- Result of `expand_select` (mod.rs lines 410-443): the rewritten contents
of the original block, the new merge block, its parameter list (value ids),
and the blocks with recomputed edges.  Operand 0 is the control value,
operand 1 the true value, operand 2 the false value. -/
structure SelectExpansion where
  oldEbbInsts : List BInst
  new_ebb : Nat
  newEbbParams : List Nat
  cfg_recomputed : List Nat
deriving DecidableEq, Repr

/-- Embedding of `expand_select`.  `result` is the value id of the original
select result, which becomes the parameter of the new block. -/
def expand_select (result old_ebb next_ebb : Nat) : SelectExpansion :=
  let new_ebb := next_ebb
  { oldEbbInsts := [.brnz (.operand 0) new_ebb [.operand 1], .jump new_ebb [.operand 2]]
    new_ebb := new_ebb
    newEbbParams := [result]
    cfg_recomputed := [new_ebb, old_ebb] }

/-- Result of `expand_cond_trap` (mod.rs lines 200-263): the rewritten
contents of the original block, the new trap and resume blocks, the trap
block contents, whether the resume block receives the subsequent code, and
the blocks with recomputed edges. -/
structure CondTrapExpansion where
  oldEbbInsts : List BInst
  trap_ebb : Nat
  resume_ebb : Nat
  trapEbbInsts : List BInst
  resume_gets_rest : Bool
  cfg_recomputed : List Nat
deriving DecidableEq, Repr

/-- Embedding of `expand_cond_trap`.  `is_trapz` is true for `trapz` and
false for `trapnz`; operand 0 is the trap condition argument. -/
def expand_cond_trap (is_trapz : Bool) (code : TrapCode) (old_ebb next_ebb : Nat) :
    CondTrapExpansion :=
  let new_ebb_trap := next_ebb
  let new_ebb_resume := next_ebb + 1
  { oldEbbInsts :=
      [if is_trapz then .brnz (.operand 0) new_ebb_resume []
       else .brz (.operand 0) new_ebb_resume [],
       .jump new_ebb_trap []]
    trap_ebb := new_ebb_trap
    resume_ebb := new_ebb_resume
    trapEbbInsts := [.trapB code]
    resume_gets_rest := true
    cfg_recomputed := [old_ebb, new_ebb_resume, new_ebb_trap] }

/-- Outcome of the conditional-trap rewrite on argument value `arg`. -/
def condTrapOutcome (w : Nat) (is_trapz : Bool) (code : TrapCode)
    (old_ebb next_ebb arg : Nat) : Outcome :=
  let e := expand_cond_trap is_trapz code old_ebb next_ebb
  execFrag w (fun _ => 0) (fun _ => arg)
    [(old_ebb, e.oldEbbInsts), (e.trap_ebb, e.trapEbbInsts)] 2 old_ebb []

/-- Outcome of the select rewrite on control `c`, true value `t`, false
value `f`. -/
def selectOutcome (w : Nat) (result old_ebb next_ebb c t f : Nat) : Outcome :=
  let e := expand_select result old_ebb next_ebb
  execFrag w (fun _ => 0) (fun i => if i = 0 then c else if i = 1 then t else f)
    [(old_ebb, e.oldEbbInsts)] 2 old_ebb []

/-- What defines the source operand of an `isplit` after alias resolution
(mod.rs lines 75-91): the result of an `iconcat`, the result of some other
instruction, or a block parameter. -/
inductive ArgDef where
  | iconcatResult
  | otherInstResult
  | ebbParam
deriving DecidableEq, Repr

/-- The shape of an instruction as far as the two-phase isplit handling is
concerned: an `isplit` with the given source definition, or anything else. -/
inductive InstKind where
  | isplitK (src : ArgDef)
  | otherOp
deriving DecidableEq, Repr

/-- Result type of `legalize_inst` (mod.rs lines 41-45). -/
inductive LegalizeInstResult where
  | Done
  | Legalized
  | SplitLegalizePending
deriving DecidableEq, Repr

/-- Embedding of the `isplit` classification in `legalize_inst` (mod.rs
lines 67-109): an `isplit` whose source is not produced by an `iconcat` is
deferred; one whose source is an `iconcat` result or a block parameter is
resolved immediately (the original instruction is removed and its two
results are aliased to the half-width values produced by `split::isplit`,
an external collaborator).  Every other instruction is encoded as-is for
the purposes of this model. -/
def legalize_inst : InstKind → LegalizeInstResult
  | .isplitK .otherInstResult => .SplitLegalizePending
  | .isplitK .iconcatResult => .Legalized
  | .isplitK .ebbParam => .Legalized
  | .otherOp => .Done

/-- Ordered-set insertion: the `BTreeSet` is modelled as a strictly
ascending list, into which insertion places the id at its position and
drops duplicates. -/
def btreeInsert (x : Nat) : List Nat → List Nat
  | [] => [x]
  | y :: ys =>
    if x < y then x :: y :: ys
    else if x = y then y :: ys
    else y :: btreeInsert x ys

/-- Walk state of `legalize_function` (mod.rs lines 150-178):
`pending_splits` is the `BTreeSet` of deferred isplit instructions (as its
ascending element list); `deferred_order` records deferral events in the
order the walk encountered them; `resolved_now` records the isplit
instructions resolved immediately, in walk order. -/
structure WalkState where
  pending_splits : List Nat
  deferred_order : List Nat
  resolved_now : List Nat
deriving DecidableEq, Repr

/-- One step of the main walk on instruction `p` (id, kind). -/
def walkStep (st : WalkState) (p : Nat × InstKind) : WalkState :=
  match legalize_inst p.2 with
  | .SplitLegalizePending =>
    { st with
      pending_splits := btreeInsert p.1 st.pending_splits
      deferred_order := st.deferred_order ++ [p.1] }
  | .Legalized => { st with resolved_now := st.resolved_now ++ [p.1] }
  | .Done => st

/-- The main walk over the instruction stream in layout (encounter) order. -/
def legalize_function_walk (prog : List (Nat × InstKind)) : WalkState :=
  prog.foldl walkStep ⟨[], [], []⟩

/-- The order in which the second pass visits the deferred instructions:
iteration order of the `BTreeSet`, i.e. ascending instruction id. -/
def retryOrder (prog : List (Nat × InstKind)) : List Nat :=
  (legalize_function_walk prog).pending_splits

/-- The second pass (mod.rs lines 181-184): re-run `legalize_inst` on each
pending instruction, its source definition now given by `after`; the result
is discarded, so an isplit that is still unresolvable is simply left.  This
returns the instructions left unresolved. -/
def retryLeftover (after : Nat → ArgDef) : List Nat → List Nat
  | [] => []
  | i :: rest =>
    match legalize_inst (.isplitK (after i)) with
    | .SplitLegalizePending => i :: retryLeftover after rest
    | _ => retryLeftover after rest

/-- Memory access flags.  Modelled from the spec: the `MemFlags`
implementation is not under src/; the spec describes stack-slot accesses as
guaranteed-aligned and guaranteed-non-trapping, and `trusted()` as the flag
set carrying exactly those two guarantees. -/
structure MemFlags where
  notrap : Bool
  aligned : Bool
deriving DecidableEq, Repr

/-- Fresh flags with no guarantee set (`MemFlags::new()`). -/
def MemFlags.new : MemFlags := { notrap := false, aligned := false }

/-- Modelled from the spec: `MemFlags::trusted()` is the guaranteed
non-trapping and guaranteed aligned flag set. -/
def MemFlags.trusted : MemFlags := { notrap := true, aligned := true }

/-- Set the non-trapping guarantee (`set_notrap`). -/
def MemFlags.set_notrap (m : MemFlags) : MemFlags := { m with notrap := true }

/-- Set the alignment guarantee (`set_aligned`). -/
def MemFlags.set_aligned (m : MemFlags) : MemFlags := { m with aligned := true }

/-- Instructions emitted by the stack-slot load/store lowerings. -/
inductive StackInst where
  | stackAddr (stack_slot : Nat) (offset : Int)
  | loadS (flags : MemFlags)
  | storeS (flags : MemFlags)
deriving DecidableEq, Repr

/-- Embedding of `expand_stack_load` (mod.rs lines 508-537): compute the
stack address, then replace the instruction by a plain load through it with
trusted flags. -/
def expand_stack_load (stack_slot : Nat) (offset : Int) : List StackInst :=
  let addr := StackInst.stackAddr stack_slot offset
  -- Stack slots are required to be accessible and aligned.
  let mflags := MemFlags.trusted
  [addr, .loadS mflags]

/-- Embedding of `expand_stack_store` (mod.rs lines 540-571): compute the
stack address, then replace the instruction by a plain store through it with
the non-trapping and aligned guarantees set. -/
def expand_stack_store (stack_slot : Nat) (offset : Int) : List StackInst :=
  let addr := StackInst.stackAddr stack_slot offset
  let mflags := MemFlags.new
  -- Stack slots are required to be accessible and aligned.
  let mflags := mflags.set_notrap
  let mflags := mflags.set_aligned
  [addr, .storeS mflags]

/-- The flags of the load emitted by a lowering, if any. -/
def loadFlags : List StackInst → Option MemFlags
  | [] => none
  | .loadS flags :: _ => some flags
  | _ :: rest => loadFlags rest

/-- The flags of the store emitted by a lowering, if any. -/
def storeFlags : List StackInst → Option MemFlags
  | [] => none
  | .storeS flags :: _ => some flags
  | _ :: rest => storeFlags rest

/-- C1: the claim is false on the code.  For the static heap with bound 2
and access size 1 the limit is 1 (odd), so the expansion emits the check
`offset >= limit - 1 = 0`; at offset 0 the emitted code traps although
`0 + 1 <= 2` is in bounds, contradicting "traps if and only if O + S > B"
and the claimed equivalence of the odd-limit comparison with
`offset > limit` (whose equivalent form is `offset >= limit + 1`). -/
theorem static_heap_odd_limit_check_diverges :
    staticTraps 32 1 2 0 = true ∧ 0 + 1 ≤ 2 := by
  constructor
  · decide
  · decide

/-- C3: for a static heap whose access size exceeds its bound, the expansion
emits exactly an unconditional trap followed by the dummy zero address
replacing the instruction, splits the block (the remainder becoming the one
new block), recomputes edges for the original and the new block, and emits
no address computation; the rewritten code traps for every offset. -/
theorem static_heap_oversize_access_always_traps
    (offset_ty addr_ty access_size bound base_gv : Nat) (flags : IsaFlags)
    (ptr_ty curr_ebb next_ebb : Nat) (gv ops : Nat → Nat)
    (h : access_size > bound) :
    static_addr offset_ty addr_ty access_size bound base_gv flags ptr_ty curr_ebb next_ebb
      = { insts := [.trap .HeapOutOfBounds, .replaceWith (.iconst addr_ty 0)]
          split_after_trap := true
          new_ebbs := [next_ebb]
          cfg_recomputed := [curr_ebb, next_ebb] }
    ∧ trapsIn offset_ty gv ops
        (static_addr offset_ty addr_ty access_size bound base_gv flags ptr_ty
          curr_ebb next_ebb).insts = true
    ∧ (static_addr offset_ty addr_ty access_size bound base_gv flags ptr_ty
          curr_ebb next_ebb).insts.countP (fun i => isAddrComputation i) = 0 := by
  have hb : ¬ access_size ≤ bound := not_le.mpr h
  refine ⟨?_, ?_, ?_⟩
  · simp [static_addr, if_pos h, ins_trap, ins_replace]
  · simp [static_addr, if_pos h, ins_trap, ins_replace, trapsIn, trapTriggered]
  · simp [static_addr, if_pos h, ins_trap, ins_replace, isAddrComputation]

/-- C3 witness: the spec example scenario, bound 70000 and access size
100000, at offset 5. -/
theorem static_heap_oversize_access_always_traps_witness :
    100000 > 70000 ∧
    (static_addr 32 64 100000 70000 1 ⟨false, false⟩ 64 0 1
      = { insts := [.trap .HeapOutOfBounds, .replaceWith (.iconst 64 0)]
          split_after_trap := true
          new_ebbs := [1]
          cfg_recomputed := [0, 1] }
    ∧ trapsIn 32 (fun _ => 0) (fun _ => 5)
        (static_addr 32 64 100000 70000 1 ⟨false, false⟩ 64 0 1).insts = true
    ∧ (static_addr 32 64 100000 70000 1 ⟨false, false⟩ 64 0 1).insts.countP
        (fun i => isAddrComputation i) = 0) :=
  ⟨by decide,
   static_heap_oversize_access_always_traps 32 64 100000 70000 1 ⟨false, false⟩ 64 0 1
     (fun _ => 0) (fun _ => 5) (by decide)⟩

/-- C9: expanding `br_table` with an empty jump table through the
linear-chain expander yields just an unconditional jump to the default
destination in the original block: no comparisons, no new blocks, and only
the original block has its edges recomputed. -/
theorem br_table_conds_empty_table_single_jump (default_ebb old_ebb next_ebb : Nat) :
    expand_br_table_conds [] default_ebb old_ebb next_ebb
      = { frag := [(old_ebb, [.jump default_ebb []])]
          new_ebbs := []
          cfg_recomputed := [old_ebb] } := by
  simp [expand_br_table_conds, condsChain]

/-- C10: the stack-load lowering emits a stack-address computation followed
by a plain load whose memory flags are the trusted set (non-trapping and
aligned), identical to the flags the stack-store lowering attaches to its
store. -/
theorem stack_load_trusted_flags_match_store (stack_slot : Nat) (offset : Int) :
    expand_stack_load stack_slot offset
      = [.stackAddr stack_slot offset, .loadS MemFlags.trusted]
    ∧ loadFlags (expand_stack_load stack_slot offset) = some MemFlags.trusted
    ∧ MemFlags.trusted.notrap = true
    ∧ MemFlags.trusted.aligned = true
    ∧ loadFlags (expand_stack_load stack_slot offset)
        = storeFlags (expand_stack_store stack_slot offset) :=
  ⟨rfl, rfl, rfl, rfl, rfl⟩

/-- C7: the select expansion creates one new block with exactly one
parameter (the original result value), branches to it with the true value
on a nonzero control and with the false value otherwise, recomputes the
edges of both touched blocks, and the merged-block parameter receives `t`
when the control is nonzero and `f` when it is zero. -/
theorem select_expansion_merged_param
    (w result old_ebb next_ebb c t f : Nat)
    (hc : c < 2 ^ w) (ht : t < 2 ^ w) (hf : f < 2 ^ w)
    (hfresh : old_ebb ≠ next_ebb) :
    (expand_select result old_ebb next_ebb).newEbbParams = [result]
    ∧ (expand_select result old_ebb next_ebb).cfg_recomputed = [next_ebb, old_ebb]
    ∧ selectOutcome w result old_ebb next_ebb c t f
        = .outside next_ebb [if c ≠ 0 then t else f] := by
  refine ⟨rfl, rfl, ?_⟩
  have hcm : c % 2 ^ w = c := Nat.mod_eq_of_lt hc
  have htm : t % 2 ^ w = t := Nat.mod_eq_of_lt ht
  have hfm : f % 2 ^ w = f := Nat.mod_eq_of_lt hf
  by_cases hc0 : c = 0
  · simp [selectOutcome, expand_select, execFrag, execFromInsts, execBlockInsts,
      findEbb, evalVal, hcm, htm, hfm, hc0, hfresh]
  · simp [selectOutcome, expand_select, execFrag, execFromInsts, execBlockInsts,
      findEbb, evalVal, hcm, htm, hfm, hc0, hfresh]

/-- C7 witness: control 3, true value 17, false value 42 at width 32. -/
theorem select_expansion_merged_param_witness :
    (3 < 2 ^ 32 ∧ 17 < 2 ^ 32 ∧ 42 < 2 ^ 32 ∧ (5 : Nat) ≠ 6) ∧
    ((expand_select 99 5 6).newEbbParams = [99]
    ∧ (expand_select 99 5 6).cfg_recomputed = [6, 5]
    ∧ selectOutcome 32 99 5 6 3 17 42 = .outside 6 [if (3 : Nat) ≠ 0 then 17 else 42]) :=
  ⟨⟨by decide, by decide, by decide, by decide⟩,
   select_expansion_merged_param 32 99 5 6 3 17 42 (by decide) (by decide) (by decide)
     (by decide)⟩

/-- C8: the conditional-trap expansion replaces the instruction with a
branch on the inverted condition to a new resume block (which receives the
subsequent code), followed by a jump to a new trap block holding only the
unconditional trap with the original code; the rewritten code traps exactly
when the original would (argument zero for trapz, nonzero for trapnz) and
otherwise resumes. -/
theorem cond_trap_expansion_traps_iff
    (w : Nat) (is_trapz : Bool) (code : TrapCode) (old_ebb next_ebb arg : Nat)
    (ha : arg < 2 ^ w) (hfresh : old_ebb < next_ebb) :
    (expand_cond_trap is_trapz code old_ebb next_ebb).trapEbbInsts = [.trapB code]
    ∧ (expand_cond_trap is_trapz code old_ebb next_ebb).resume_gets_rest = true
    ∧ (expand_cond_trap is_trapz code old_ebb next_ebb).cfg_recomputed
        = [old_ebb, next_ebb + 1, next_ebb]
    ∧ (is_trapz = true →
        condTrapOutcome w is_trapz code old_ebb next_ebb arg
          = if arg = 0 then .trapOut code else .outside (next_ebb + 1) [])
    ∧ (is_trapz = false →
        condTrapOutcome w is_trapz code old_ebb next_ebb arg
          = if arg = 0 then .outside (next_ebb + 1) [] else .trapOut code) := by
  have ham : arg % 2 ^ w = arg := Nat.mod_eq_of_lt ha
  have h1 : old_ebb ≠ next_ebb := Nat.ne_of_lt hfresh
  have h2 : old_ebb ≠ next_ebb + 1 := Nat.ne_of_lt (Nat.lt_succ_of_lt hfresh)
  have h3 : next_ebb ≠ next_ebb + 1 := Nat.ne_of_lt (Nat.lt_succ_self next_ebb)
  refine ⟨rfl, rfl, rfl, ?_, ?_⟩
  · rintro rfl
    by_cases ha0 : arg = 0
    · simp [condTrapOutcome, expand_cond_trap, execFrag, execFromInsts, execBlockInsts,
        findEbb, evalVal, ham, ha0, h1, h2, h3]
    · simp [condTrapOutcome, expand_cond_trap, execFrag, execFromInsts, execBlockInsts,
        findEbb, evalVal, ham, ha0, h1, h2, h3]
  · rintro rfl
    by_cases ha0 : arg = 0
    · simp [condTrapOutcome, expand_cond_trap, execFrag, execFromInsts, execBlockInsts,
        findEbb, evalVal, ham, ha0, h1, h2, h3]
    · simp [condTrapOutcome, expand_cond_trap, execFrag, execFromInsts, execBlockInsts,
        findEbb, evalVal, ham, ha0, h1, h2, h3]

/-- An if-then-else over 1 and 0 is nonzero exactly when its condition
holds. -/
theorem ite_one_zero_ne_zero (c : Prop) [Decidable c] :
    ((if c then (1 : Nat) else 0) ≠ 0) ↔ c := by
  split <;> simp_all

/-- Truncating a natural-number cast to width m and back. -/
theorem natCast_emod_toNat (a m : Nat) :
    (((a : Int) % ((m : Nat) : Int))).toNat = a % m := by
  rw [← Int.natCast_mod]
  exact Int.toNat_natCast _

/-- Immediates holding a small natural value evaluate to that value. -/
theorem immVal_natCast (w k : Nat) (h : k < 2 ^ w) : immVal w (k : Int) = k := by
  rw [immVal, natCast_emod_toNat, Nat.mod_eq_of_lt h]

/-- The i64 reinterpretation of a u32-range value is the value itself. -/
theorem as_i64_small (S : Nat) (h : S < 2 ^ 32) : as_i64 S = (S : Int) := by
  have h63 : S < 2 ^ 63 := lt_of_lt_of_le h (by norm_num)
  rw [as_i64, if_pos h63]

/-- The wrapped bound adjustment `iadd_imm bound, -access_size` evaluates to
the exact difference when the subtraction cannot underflow. -/
theorem iaddImm_sub_eval (w B S : Nat) (hSB : S ≤ B) (hB : B < 2 ^ w) :
    (((B : Int) + (-(S : Int))) % ((2 ^ w : Nat) : Int)).toNat = B - S := by
  have h1 : (B : Int) + (-(S : Int)) = ((B - S : Nat) : Int) := by
    rw [Nat.cast_sub hSB]
    ring
  rw [h1, natCast_emod_toNat, Nat.mod_eq_of_lt (by omega)]

/-- The emitted instructions of the dynamic expansion on the large-access
path (`access_size > min_size`, `access_size != 1`). -/
theorem dynInsts_large (w S min_size : Nat) (h1 : S ≠ 1) (h2 : ¬ S ≤ min_size) :
    dynInsts w S min_size =
      [.globalValue w 0, .iconst w (as_i64 S),
       .iaddCout (.operand 0) (.iconst w (as_i64 S)),
       .trapnz (.iaddCoutCarry (.operand 0) (.iconst w (as_i64 S))) .HeapOutOfBounds,
       .icmp .UnsignedGreaterThan (.iaddCoutSum (.operand 0) (.iconst w (as_i64 S)))
         (.globalValue w 0),
       .trapnz (.icmp .UnsignedGreaterThan
           (.iaddCoutSum (.operand 0) (.iconst w (as_i64 S))) (.globalValue w 0))
         .HeapOutOfBounds,
       .globalValue w 1, .replaceWith (.iadd (.globalValue w 1) (.operand 0))] := by
  simp [dynInsts, dynamic_addr, h1, h2, ins_global_value, ins_iconst, ins_iadd_cout,
    ins_trapnz, ins_icmp, compute_addr, ins_replace, ins_uextend]

/-- The emitted instructions of the dynamic expansion on the small-access
path (`1 < access_size <= min_size`). -/
theorem dynInsts_small (w S min_size : Nat) (h1 : S ≠ 1) (h2 : S ≤ min_size) :
    dynInsts w S min_size =
      [.globalValue w 0, .iaddImm (.globalValue w 0) (-(as_i64 S)),
       .icmp .UnsignedGreaterThan (.operand 0) (.iaddImm (.globalValue w 0) (-(as_i64 S))),
       .trapnz (.icmp .UnsignedGreaterThan (.operand 0)
           (.iaddImm (.globalValue w 0) (-(as_i64 S)))) .HeapOutOfBounds,
       .globalValue w 1, .replaceWith (.iadd (.globalValue w 1) (.operand 0))] := by
  simp [dynInsts, dynamic_addr, h1, h2, ins_global_value, ins_iadd_imm,
    ins_trapnz, ins_icmp, compute_addr, ins_replace, ins_uextend]

/-- C2 counterexample: the claim quantifies over every access size strictly
greater than the minimum guaranteed size, but for access size 1 over a heap
with minimum size 0 the code takes the `access_size == 1` branch and emits
no carry-out overflow instruction at all. -/
theorem dynamic_access_one_no_overflow_inst :
    0 < 1 ∧ (dynInsts 32 1 0).countP (fun i => isOverflowInst i) = 0 := by
  constructor
  · decide
  · decide

/-- C2 (amended to access sizes greater than 1): on the overflow-check path
the expansion emits exactly one carry-out addition, traps whenever the
addition overflows, and the emitted check reports in bounds exactly when
`O + S <= B` in exact arithmetic, so wraparound can never produce a false
in-bounds result. -/
theorem dynamic_large_access_overflow_check_sound
    (w S min_size B O : Nat) (hmin : min_size < S) (h1 : 1 < S)
    (hS32 : S < 2 ^ 32) (hw : 32 ≤ w) (hB : B < 2 ^ w) (hO : O < 2 ^ w) :
    (dynInsts w S min_size).countP (fun i => isOverflowInst i) = 1
    ∧ (2 ^ w ≤ O + S → dynamicTraps w S min_size B O = true)
    ∧ (dynamicTraps w S min_size B O = false ↔ O + S ≤ B) := by
  have hS1 : S ≠ 1 := by omega
  have hS2 : ¬ S ≤ min_size := by omega
  have hSw : S < 2 ^ w := lt_of_lt_of_le hS32 (Nat.pow_le_pow_right (by norm_num) hw)
  have hl := dynInsts_large w S min_size hS1 hS2
  have hOme : O % 2 ^ w = O := Nat.mod_eq_of_lt hO
  have hBme : B % 2 ^ w = B := Nat.mod_eq_of_lt hB
  have hSe : immVal w (as_i64 S) = S := by
    rw [as_i64_small S hS32, immVal_natCast w S hSw]
  have hrun : dynamicTraps w S min_size B O
      = (decide (2 ^ w ≤ O + S) || decide (B < (O + S) % 2 ^ w)) := by
    simp [dynamicTraps, hl, trapsIn, trapTriggered, evalVal, evalCC, hSe, hOme, hBme,
      ite_one_zero_ne_zero]
  refine ⟨?_, ?_, ?_⟩
  · simp [hl, List.countP_cons, isOverflowInst]
  · intro hov
    simp [hrun, hov]
  · rw [hrun]
    by_cases hov : 2 ^ w ≤ O + S
    · have hnb : ¬ O + S ≤ B := by omega
      simp [hov, hnb]
    · have hmod : (O + S) % 2 ^ w = O + S := Nat.mod_eq_of_lt (by omega)
      simp [hov, hmod]

/-- C2 witness: width 32, access size 2 over minimum size 1, bound 10,
offset 3. -/
theorem dynamic_large_access_overflow_check_sound_witness :
    (1 < 2 ∧ 1 < 2 ∧ 2 < 2 ^ 32 ∧ 32 ≤ 32 ∧ 10 < 2 ^ 32 ∧ 3 < 2 ^ 32) ∧
    ((dynInsts 32 2 1).countP (fun i => isOverflowInst i) = 1
    ∧ (2 ^ 32 ≤ 3 + 2 → dynamicTraps 32 2 1 10 3 = true)
    ∧ (dynamicTraps 32 2 1 10 3 = false ↔ 3 + 2 ≤ 10)) :=
  ⟨⟨by decide, by decide, by decide, by decide, by decide, by decide⟩,
   dynamic_large_access_overflow_check_sound 32 2 1 10 3 (by decide) (by decide)
     (by decide) (by decide) (by decide) (by decide)⟩

/-- C4: for `1 < access_size <= min_size` with a runtime bound at least the
minimum size, the dynamic expansion emits no overflow-detecting
instruction, exactly one bound subtraction and one comparison, and traps
exactly when `offset > bound - access_size` in exact arithmetic (the
subtraction cannot underflow). -/
theorem dynamic_small_access_single_compare_trap_iff
    (w S min_size B O : Nat) (h1 : 1 < S) (hmin : S ≤ min_size) (hbound : min_size ≤ B)
    (hS32 : S < 2 ^ 32) (hw : 32 ≤ w) (hB : B < 2 ^ w) (hO : O < 2 ^ w) :
    (dynInsts w S min_size).countP (fun i => isOverflowInst i) = 0
    ∧ (dynInsts w S min_size).countP (fun i => isBoundSub i) = 1
    ∧ (dynInsts w S min_size).countP (fun i => isCompare i) = 1
    ∧ (dynamicTraps w S min_size B O = true ↔ B - S < O) := by
  have hS1 : S ≠ 1 := by omega
  have hSB : S ≤ B := le_trans hmin hbound
  have hl := dynInsts_small w S min_size hS1 hmin
  have hOme : O % 2 ^ w = O := Nat.mod_eq_of_lt hO
  have hBme : B % 2 ^ w = B := Nat.mod_eq_of_lt hB
  have hadj : ((((B % 2 ^ w : Nat) : Int) + (-(as_i64 S))) % ((2 ^ w : Nat) : Int)).toNat
      = B - S := by
    rw [hBme, as_i64_small S hS32]
    exact iaddImm_sub_eval w B S hSB hB
  refine ⟨?_, ?_, ?_, ?_⟩
  · simp [hl, List.countP_cons, isOverflowInst]
  · simp [hl, List.countP_cons, isBoundSub]
  · simp [hl, List.countP_cons, isCompare]
  · rw [dynamicTraps, hl]
    simp only [trapsIn, List.any_cons, List.any_nil, trapTriggered, evalVal, evalCC]
    simp only [hadj, hOme]
    simp [ite_one_zero_ne_zero]

/-- C4 witness: the spec example scenario, minimum size 65536 and access
size 8, bound 65536, offset 65529 (one past the last in-bounds offset). -/
theorem dynamic_small_access_single_compare_trap_iff_witness :
    (1 < 8 ∧ 8 ≤ 65536 ∧ 65536 ≤ 65536 ∧ 8 < 2 ^ 32 ∧ 32 ≤ 32
      ∧ 65536 < 2 ^ 32 ∧ 65529 < 2 ^ 32) ∧
    ((dynInsts 32 8 65536).countP (fun i => isOverflowInst i) = 0
    ∧ (dynInsts 32 8 65536).countP (fun i => isBoundSub i) = 1
    ∧ (dynInsts 32 8 65536).countP (fun i => isCompare i) = 1
    ∧ (dynamicTraps 32 8 65536 65536 65529 = true ↔ 65536 - 8 < 65529)) :=
  ⟨⟨by decide, by decide, by decide, by decide, by decide, by decide, by decide⟩,
   dynamic_small_access_single_compare_trap_iff 32 8 65536 65536 65529 (by decide)
     (by decide) (by decide) (by decide) (by decide) (by decide) (by decide)⟩

/-- C8 witness: a trapz with argument 0 at width 32 (blocks 5, 6, 7). -/
theorem cond_trap_expansion_traps_iff_witness :
    (0 < 2 ^ 32 ∧ 5 < 6) ∧
    ((expand_cond_trap true (.User 7) 5 6).trapEbbInsts = [.trapB (.User 7)]
    ∧ (expand_cond_trap true (.User 7) 5 6).resume_gets_rest = true
    ∧ (expand_cond_trap true (.User 7) 5 6).cfg_recomputed = [5, 7, 6]
    ∧ (true = true →
        condTrapOutcome 32 true (.User 7) 5 6 0
          = if (0 : Nat) = 0 then .trapOut (.User 7) else .outside 7 [])
    ∧ (true = false →
        condTrapOutcome 32 true (.User 7) 5 6 0
          = if (0 : Nat) = 0 then .outside 7 [] else .trapOut (.User 7))) :=
  ⟨⟨by decide, by decide⟩,
   cond_trap_expansion_traps_iff 32 true (.User 7) 5 6 0 (by decide) (by decide)⟩

/-- A block id not among the fragment keys resolves to nothing. -/
theorem findEbb_of_not_mem (L : List (Nat × List BInst)) (ebb : Nat)
    (h : ebb ∉ L.map Prod.fst) : findEbb L ebb = none := by
  induction L with
  | nil => rfl
  | cons p rest ih =>
    obtain ⟨e, insts⟩ := p
    simp only [List.map_cons, List.mem_cons, not_or] at h
    rw [findEbb, if_neg (fun hc => h.1 hc.symm)]
    exact ih h.2

/-- Lookup in a fragment with pairwise distinct keys finds each block. -/
theorem findEbb_of_mem_nodup (L : List (Nat × List BInst))
    (hnd : (L.map Prod.fst).Nodup) (p : Nat × List BInst) (hp : p ∈ L) :
    findEbb L p.1 = some p.2 := by
  induction L with
  | nil => cases hp
  | cons q rest ih =>
    obtain ⟨e, insts⟩ := q
    simp only [List.map_cons, List.nodup_cons] at hnd
    rcases List.mem_cons.mp hp with heq | hmem
    · subst heq
      simp [findEbb]
    · have hne : e ≠ p.1 := by
        intro hc
        have hm : p.1 ∈ rest.map Prod.fst := List.mem_map_of_mem Prod.fst hmem
        rw [← hc] at hm
        exact hnd.1 hm
      rw [findEbb, if_neg hne]
      exact ih hnd.2 hmem

/-- The keys of the chain blocks are exactly the fallthrough block ids. -/
theorem condsChain_keys (default_ebb : Nat) :
    ∀ (dests cfs : List Nat) (k : Nat),
      (dests.length = cfs.length + 1 ∨ (dests = [] ∧ cfs = [])) →
      (condsChain k dests cfs default_ebb).2.map Prod.fst = cfs := by
  intro dests
  induction dests with
  | nil =>
    intro cfs k har
    rcases har with h | ⟨_, rfl⟩
    · exact absurd h (by simp)
    · rfl
  | cons d rest ih =>
    intro cfs k har
    cases cfs with
    | nil => rfl
    | cons cf cfs2 =>
      have harr : rest.length = cfs2.length + 1 ∨ (rest = [] ∧ cfs2 = []) := by
        rcases har with h | ⟨h, _⟩
        · left
          simp only [List.length_cons] at h
          omega
        · cases h
      simp only [condsChain, List.map_cons, List.cons.injEq]
      exact ⟨trivial, ih cfs2 (k + 1) harr⟩

/-- Entering a block outside the fragment yields the outside outcome. -/
theorem execFrag_outside (w : Nat) (gv ops : Nat → Nat) (frag : List (Nat × List BInst))
    (fuel ebb : Nat) (args : List Nat) (hfind : findEbb frag ebb = none) :
    execFrag w gv ops frag fuel ebb args = .outside ebb args := by
  rw [execFrag, hfind]

/-- Entering a block of the fragment with fuel runs its instructions. -/
theorem execFrag_enter (w : Nat) (gv ops : Nat → Nat) (frag : List (Nat × List BInst))
    (fuel ebb : Nat) (args : List Nat) (insts : List BInst)
    (hfind : findEbb frag ebb = some insts) :
    execFrag w gv ops frag (fuel + 1) ebb args = execFromInsts w gv ops frag fuel insts := by
  rw [execFrag, hfind]

/-- A block whose instructions produce a branch continues at its target. -/
theorem execFromInsts_step (w : Nat) (gv ops : Nat → Nat) (frag : List (Nat × List BInst))
    (fuel : Nat) (insts : List BInst) (d : Nat) (args : List Nat)
    (h : execBlockInsts w gv ops insts = .goto d args) :
    execFromInsts w gv ops frag fuel insts = execFrag w gv ops frag fuel d args := by
  rw [execFromInsts, h]

/-- Executing one chain block: skip the compare, take the branch when the
index equals the compared constant, fall through to the jump otherwise. -/
theorem execBlockInsts_chain (w : Nat) (gv ops : Nat → Nat) (k d nxt : Nat)
    (hkw : k < 2 ^ w) :
    execBlockInsts w gv ops
      [.pureV (Val.icmpImm .Equal (.operand 0) (k : Int)),
       .brnz (Val.icmpImm .Equal (.operand 0) (k : Int)) d [],
       .jump nxt []]
      = if ops 0 % 2 ^ w = k then .goto d [] else .goto nxt [] := by
  simp only [execBlockInsts, evalVal, evalCC, immVal_natCast w k hkw]
  by_cases hik : ops 0 % 2 ^ w = k
  · simp [hik]
  · simp [hik]

/-- Running the compare chain starting at index `k` lands outside the
fragment at the chain target: the destination whose index matches, or the
default destination. -/
theorem condsChain_exec (w : Nat) (gv ops : Nat → Nat)
    (frag : List (Nat × List BInst)) (default_ebb : Nat) :
    ∀ (dests cfs : List Nat) (k fuel : Nat),
      (dests.length = cfs.length + 1 ∨ (dests = [] ∧ cfs = [])) →
      (∀ p ∈ (condsChain k dests cfs default_ebb).2, findEbb frag p.1 = some p.2) →
      (∀ d ∈ dests, findEbb frag d = none) →
      findEbb frag default_ebb = none →
      k + dests.length ≤ 2 ^ w →
      dests.length ≤ fuel →
      execFromInsts w gv ops frag fuel (condsChain k dests cfs default_ebb).1
        = .outside (chainTarget (ops 0 % 2 ^ w) k dests default_ebb) [] := by
  intro dests
  induction dests with
  | nil =>
    intro cfs k fuel har hblocks hdests hdef hk hfuel
    have h1 : (condsChain k [] cfs default_ebb).1 = [.jump default_ebb []] := rfl
    rw [h1, execFromInsts_step w gv ops frag fuel _ default_ebb []
      (by simp [execBlockInsts]), execFrag_outside w gv ops frag fuel _ _ hdef]
    rfl
  | cons d rest ih =>
    intro cfs k fuel har hblocks hdests hdef hk hfuel
    have hkw : k < 2 ^ w := by
      simp only [List.length_cons] at hk
      omega
    have hdfind : findEbb frag d = none := hdests d (List.mem_cons_self d rest)
    cases cfs with
    | nil =>
      have hrest : rest = [] := by
        rcases har with h | ⟨h, _⟩
        · simp only [List.length_cons, List.length_nil] at h
          exact List.length_eq_zero.mp (by omega)
        · cases h
      subst hrest
      have h1 : (condsChain k [d] [] default_ebb).1
          = [.pureV (Val.icmpImm .Equal (.operand 0) (k : Int)),
             .brnz (Val.icmpImm .Equal (.operand 0) (k : Int)) d [],
             .jump default_ebb []] := rfl
      rw [h1]
      by_cases hik : ops 0 % 2 ^ w = k
      · rw [execFromInsts_step w gv ops frag fuel _ d []
            (by rw [execBlockInsts_chain w gv ops k d default_ebb hkw, if_pos hik]),
          execFrag_outside w gv ops frag fuel _ _ hdfind]
        simp only [chainTarget, if_pos hik]
      · rw [execFromInsts_step w gv ops frag fuel _ default_ebb []
            (by rw [execBlockInsts_chain w gv ops k d default_ebb hkw, if_neg hik]),
          execFrag_outside w gv ops frag fuel _ _ hdef]
        simp only [chainTarget, if_neg hik]
    | cons cf cfs2 =>
      have harr : rest.length = cfs2.length + 1 ∨ (rest = [] ∧ cfs2 = []) := by
        rcases har with h | ⟨h, _⟩
        · left
          simp only [List.length_cons] at h
          omega
        · cases h
      have hcf : findEbb frag cf = some ((condsChain (k + 1) rest cfs2 default_ebb).1) :=
        hblocks (cf, (condsChain (k + 1) rest cfs2 default_ebb).1)
          (List.mem_cons_self _ _)
      have hblocks2 : ∀ p ∈ (condsChain (k + 1) rest cfs2 default_ebb).2,
          findEbb frag p.1 = some p.2 :=
        fun p hp => hblocks p (List.mem_cons_of_mem _ hp)
      have h1 : (condsChain k (d :: rest) (cf :: cfs2) default_ebb).1
          = [.pureV (Val.icmpImm .Equal (.operand 0) (k : Int)),
             .brnz (Val.icmpImm .Equal (.operand 0) (k : Int)) d [],
             .jump cf []] := rfl
      rw [h1]
      by_cases hik : ops 0 % 2 ^ w = k
      · rw [execFromInsts_step w gv ops frag fuel _ d []
            (by rw [execBlockInsts_chain w gv ops k d cf hkw, if_pos hik]),
          execFrag_outside w gv ops frag fuel _ _ hdfind]
        simp only [chainTarget, if_pos hik]
      · rw [execFromInsts_step w gv ops frag fuel _ cf []
            (by rw [execBlockInsts_chain w gv ops k d cf hkw, if_neg hik])]
        cases fuel with
        | zero =>
          simp only [List.length_cons] at hfuel
          omega
        | succ f =>
          rw [execFrag_enter w gv ops frag f cf [] _ hcf]
          rw [ih cfs2 (k + 1) f harr hblocks2
            (fun x hx => hdests x (List.mem_cons_of_mem d hx)) hdef
            (by simp only [List.length_cons] at hk; omega)
            (by simp only [List.length_cons] at hfuel; omega)]
          simp only [chainTarget, if_neg hik]

/-- Closed form of the chain target. -/
theorem chainTarget_getD (idx default_ebb : Nat) :
    ∀ (dests : List Nat) (k : Nat),
      chainTarget idx k dests default_ebb
        = if k ≤ idx ∧ idx - k < dests.length then dests.getD (idx - k) 0
          else default_ebb := by
  intro dests
  induction dests with
  | nil =>
    intro k
    simp [chainTarget]
  | cons d rest ih =>
    intro k
    by_cases hik : idx = k
    · subst hik
      simp [chainTarget]
    · rw [chainTarget, if_neg hik, ih (k + 1)]
      by_cases hc : k + 1 ≤ idx ∧ idx - (k + 1) < rest.length
      · have hc2 : k ≤ idx ∧ idx - k < (d :: rest).length := by
          simp only [List.length_cons]
          omega
        rw [if_pos hc, if_pos hc2]
        have hsub : idx - k = (idx - (k + 1)) + 1 := by omega
        rw [hsub, List.getD_cons_succ]
      · have hc2 : ¬ (k ≤ idx ∧ idx - k < (d :: rest).length) := by
          simp only [List.length_cons]
          omega
        rw [if_neg hc, if_neg hc2]

/-- The jump-table form lands on the indexed table entry in range and on the
default destination out of range. -/
theorem brTableJt_dest_eval (w : Nat) (jt : List Nat)
    (default_ebb old_ebb next_ebb idx : Nat)
    (hn : jt.length < 2 ^ w) (hidx : idx < 2 ^ w)
    (hold : old_ebb < next_ebb) (hdefo : default_ebb ≠ old_ebb)
    (hdef : default_ebb < next_ebb)
    (hd : ∀ d ∈ jt, d < next_ebb ∧ d ≠ old_ebb ∧ d < 2 ^ w) :
    brTableJtDest w jt default_ebb old_ebb next_ebb idx
      = .outside (if idx < jt.length then jt.getD idx 0 else default_ebb) [] := by
  have hidxm : idx % 2 ^ w = idx := Nat.mod_eq_of_lt hidx
  have himm : immVal w (jt.length : Int) = jt.length := immVal_natCast w jt.length hn
  have holdne : old_ebb ≠ next_ebb := Nat.ne_of_lt hold
  set oob := Val.icmpImm .UnsignedGreaterThanOrEqual (.operand 0) (jt.length : Int)
    with hoob
  set base := Val.jumpTableBase w jt with hbase
  set entry := Val.jumpTableEntry (.operand 0) base 4 jt with hentry
  set addr := Val.iadd base entry with haddr
  set blkA : List BInst := [.pureV oob, .brnz oob default_ebb [], .jump next_ebb []]
    with hblkA
  set blkB : List BInst := [.pureV base, .pureV entry, .pureV addr,
    .indirectJumpTableBr addr jt] with hblkB
  have hfrag : (expand_br_table_jt jt default_ebb old_ebb next_ebb w w).frag
      = [(old_ebb, blkA), (next_ebb, blkB)] := by
    simp [expand_br_table_jt, hblkA, hblkB, hoob, hbase, hentry, haddr]
  have hfo : findEbb [(old_ebb, blkA), (next_ebb, blkB)] old_ebb = some blkA := by
    simp [findEbb]
  rw [brTableJtDest, hfrag,
    show jt.length + 2 = (jt.length + 1) + 1 from rfl,
    execFrag_enter w (fun _ => 0) (fun _ => idx) _ (jt.length + 1) old_ebb [] blkA hfo]
  by_cases hin : idx < jt.length
  · have hnle : ¬ jt.length ≤ idx := not_le.mpr hin
    have hmem : jt.getD idx 0 ∈ jt := by
      rw [List.getD_eq_getElem jt 0 hin]
      exact List.getElem_mem hin
    obtain ⟨hdn, hdo, hdw⟩ := hd (jt.getD idx 0) hmem
    have hgm : jt.getD idx 0 % 2 ^ w = jt.getD idx 0 := Nat.mod_eq_of_lt hdw
    have hA : execBlockInsts w (fun _ => 0) (fun _ => idx) blkA = .goto next_ebb [] := by
      simp only [hblkA, hoob, execBlockInsts, evalVal, evalCC, hidxm, himm]
      simp [hnle]
    have hfn : findEbb [(old_ebb, blkA), (next_ebb, blkB)] next_ebb = some blkB := by
      simp [findEbb, holdne]
    have hB : execBlockInsts w (fun _ => 0) (fun _ => idx) blkB
        = .goto (jt.getD idx 0) [] := by
      simp only [hblkB, haddr, hentry, hbase, execBlockInsts, evalVal, hidxm]
      rw [Nat.zero_add, hgm]
    have hfd : findEbb [(old_ebb, blkA), (next_ebb, blkB)] (jt.getD idx 0) = none := by
      simp only [findEbb, if_neg (Ne.symm hdo), if_neg (Ne.symm (Nat.ne_of_lt hdn))]
    rw [execFromInsts_step w (fun _ => 0) (fun _ => idx) _ (jt.length + 1) blkA
        next_ebb [] hA,
      execFrag_enter w (fun _ => 0) (fun _ => idx) _ jt.length next_ebb [] blkB hfn,
      execFromInsts_step w (fun _ => 0) (fun _ => idx) _ jt.length blkB
        (jt.getD idx 0) [] hB,
      execFrag_outside w (fun _ => 0) (fun _ => idx) _ jt.length (jt.getD idx 0) [] hfd,
      if_pos hin]
  · have hle : jt.length ≤ idx := not_lt.mp hin
    have hA : execBlockInsts w (fun _ => 0) (fun _ => idx) blkA = .goto default_ebb [] := by
      simp only [hblkA, hoob, execBlockInsts, evalVal, evalCC, hidxm, himm]
      simp [hle]
    have hfd : findEbb [(old_ebb, blkA), (next_ebb, blkB)] default_ebb = none := by
      simp [findEbb, (Ne.symm hdefo), Ne.symm (Nat.ne_of_lt hdef)]
    rw [execFromInsts_step w (fun _ => 0) (fun _ => idx) _ (jt.length + 1) blkA
        default_ebb [] hA,
      execFrag_outside w (fun _ => 0) (fun _ => idx) _ (jt.length + 1) default_ebb [] hfd,
      if_neg hin]

/-- The linear-chain form lands on the same destination. -/
theorem brTableConds_dest_eval (w : Nat) (jt : List Nat)
    (default_ebb old_ebb next_ebb idx : Nat)
    (hne : jt ≠ []) (hn : jt.length < 2 ^ w) (hidx : idx < 2 ^ w)
    (hold : old_ebb < next_ebb) (hdefo : default_ebb ≠ old_ebb)
    (hdef : default_ebb < next_ebb)
    (hd : ∀ d ∈ jt, d < next_ebb ∧ d ≠ old_ebb) :
    brTableCondsDest w jt default_ebb old_ebb next_ebb idx
      = .outside (if idx < jt.length then jt.getD idx 0 else default_ebb) [] := by
  have hidxm : idx % 2 ^ w = idx := Nat.mod_eq_of_lt hidx
  have hlen1 : 1 ≤ jt.length := List.length_pos.mpr hne
  set cfs := (List.range (jt.length - 1)).map (fun i => next_ebb + i) with hcfs
  have hcfslen : cfs.length = jt.length - 1 := by
    simp [hcfs]
  have har : jt.length = cfs.length + 1 ∨ (jt = [] ∧ cfs = []) := by
    left
    omega
  have hcfge : ∀ x ∈ cfs, next_ebb ≤ x := by
    intro x hx
    simp only [hcfs, List.mem_map, List.mem_range] at hx
    obtain ⟨i, _, rfl⟩ := hx
    omega
  have hcfnd : cfs.Nodup := by
    refine List.Nodup.map ?_ (List.nodup_range _)
    intro a b hab
    dsimp only at hab
    omega
  have hkeys : ((expand_br_table_conds jt default_ebb old_ebb next_ebb).frag.map
      Prod.fst) = old_ebb :: cfs := by
    simp only [expand_br_table_conds, List.map_cons, List.cons.injEq]
    refine ⟨trivial, ?_⟩
    simp only [ge_iff_le, if_pos hlen1]
    exact condsChain_keys default_ebb jt cfs 0 har
  have hkeysnd : ((expand_br_table_conds jt default_ebb old_ebb next_ebb).frag.map
      Prod.fst).Nodup := by
    rw [hkeys]
    refine List.nodup_cons.mpr ⟨?_, hcfnd⟩
    intro hc
    have := hcfge old_ebb hc
    omega
  have hblocks : ∀ p ∈ (condsChain 0 jt cfs default_ebb).2,
      findEbb (expand_br_table_conds jt default_ebb old_ebb next_ebb).frag p.1
        = some p.2 := by
    intro p hp
    refine findEbb_of_mem_nodup _ hkeysnd p ?_
    simp only [expand_br_table_conds, if_pos hlen1]
    exact List.mem_cons_of_mem _ hp
  have hdests : ∀ d ∈ jt,
      findEbb (expand_br_table_conds jt default_ebb old_ebb next_ebb).frag d = none := by
    intro d hdm
    refine findEbb_of_not_mem _ _ ?_
    rw [hkeys]
    intro hc
    rcases List.mem_cons.mp hc with h | h
    · exact (hd d hdm).2 h
    · have := hcfge d h
      have := (hd d hdm).1
      omega
  have hdefn :
      findEbb (expand_br_table_conds jt default_ebb old_ebb next_ebb).frag default_ebb
        = none := by
    refine findEbb_of_not_mem _ _ ?_
    rw [hkeys]
    intro hc
    rcases List.mem_cons.mp hc with h | h
    · exact hdefo h
    · have := hcfge default_ebb h
      omega
  have hchain := condsChain_exec w (fun _ => 0) (fun _ => idx)
    (expand_br_table_conds jt default_ebb old_ebb next_ebb).frag default_ebb jt cfs 0
    (jt.length + 1) har hblocks hdests hdefn (by omega) (by omega)
  have hfind : findEbb (expand_br_table_conds jt default_ebb old_ebb next_ebb).frag
      old_ebb = some ((condsChain 0 jt cfs default_ebb).1) := by
    simp [expand_br_table_conds, if_pos hlen1, findEbb]
  rw [brTableCondsDest]
  rw [show jt.length + 2 = (jt.length + 1) + 1 from rfl]
  rw [execFrag]
  simp only [hfind]
  have hfrag1 : (expand_br_table_conds jt default_ebb old_ebb next_ebb).frag
      = (old_ebb, (condsChain 0 jt cfs default_ebb).1) :: (condsChain 0 jt cfs default_ebb).2 := by
    simp [expand_br_table_conds, if_pos hlen1]
  rw [hchain, chainTarget_getD]
  simp [hidxm]

/-- C5: over any jump table with at least 3 entries, the jump-table
expansion and the linear-chain expansion of `br_table` hand control to the
same block: the indexed table entry for every in-range index and the default
destination for every out-of-range index. -/
theorem br_table_jt_conds_same_destination (w : Nat) (jt : List Nat)
    (default_ebb old_ebb next_ebb idx : Nat)
    (hlen : 3 ≤ jt.length) (hn : jt.length < 2 ^ w) (hidx : idx < 2 ^ w)
    (hold : old_ebb < next_ebb) (hdefo : default_ebb ≠ old_ebb)
    (hdef : default_ebb < next_ebb)
    (hd : ∀ d ∈ jt, d < next_ebb ∧ d ≠ old_ebb ∧ d < 2 ^ w) :
    brTableJtDest w jt default_ebb old_ebb next_ebb idx
      = brTableCondsDest w jt default_ebb old_ebb next_ebb idx
    ∧ brTableJtDest w jt default_ebb old_ebb next_ebb idx
      = .outside (if idx < jt.length then jt.getD idx 0 else default_ebb) [] := by
  have hne : jt ≠ [] := by
    intro hc
    rw [hc] at hlen
    simp at hlen
  have hjt := brTableJt_dest_eval w jt default_ebb old_ebb next_ebb idx hn hidx hold
    hdefo hdef hd
  have hconds := brTableConds_dest_eval w jt default_ebb old_ebb next_ebb idx hne hn
    hidx hold hdefo hdef (fun d hdm => ⟨(hd d hdm).1, (hd d hdm).2.1⟩)
  exact ⟨hjt.trans hconds.symm, hjt⟩

/-- C5 witness: table [1, 2, 3], default block 4, original block 5, fresh
block 6, index 1. -/
theorem br_table_jt_conds_same_destination_witness :
    (3 ≤ ([1, 2, 3] : List Nat).length ∧ ([1, 2, 3] : List Nat).length < 2 ^ 32
      ∧ 1 < 2 ^ 32 ∧ 5 < 6 ∧ (4 : Nat) ≠ 5 ∧ 4 < 6
      ∧ (∀ d ∈ ([1, 2, 3] : List Nat), d < 6 ∧ d ≠ 5 ∧ d < 2 ^ 32)) ∧
    (brTableJtDest 32 [1, 2, 3] 4 5 6 1 = brTableCondsDest 32 [1, 2, 3] 4 5 6 1
    ∧ brTableJtDest 32 [1, 2, 3] 4 5 6 1
        = .outside (if 1 < ([1, 2, 3] : List Nat).length
            then ([1, 2, 3] : List Nat).getD 1 0 else 4) []) :=
  ⟨⟨by decide, by decide, by decide, by decide, by decide, by decide, by decide⟩,
   br_table_jt_conds_same_destination 32 [1, 2, 3] 4 5 6 1 (by decide) (by decide)
     (by decide) (by decide) (by decide) (by decide) (by decide)⟩

/-- The deferral events of a walk from any start state: the isplit
instructions whose source is not produced by an iconcat, in encounter
order. -/
theorem walk_deferred_order (prog : List (Nat × InstKind)) :
    ∀ st : WalkState,
      (prog.foldl walkStep st).deferred_order
        = st.deferred_order
            ++ (prog.filter (fun p => p.2 = .isplitK .otherInstResult)).map Prod.fst := by
  induction prog with
  | nil =>
    intro st
    simp
  | cons p rest ih =>
    intro st
    obtain ⟨i, kind⟩ := p
    cases kind with
    | otherOp =>
      simp [walkStep, legalize_inst, ih, List.filter_cons]
    | isplitK src =>
      cases src <;> simp [walkStep, legalize_inst, ih, List.filter_cons]

/-- The immediately resolved instructions of a walk from any start state. -/
theorem walk_resolved_now (prog : List (Nat × InstKind)) :
    ∀ st : WalkState,
      (prog.foldl walkStep st).resolved_now
        = st.resolved_now
            ++ (prog.filter (fun p => legalize_inst p.2 = .Legalized)).map Prod.fst := by
  induction prog with
  | nil =>
    intro st
    simp
  | cons p rest ih =>
    intro st
    obtain ⟨i, kind⟩ := p
    cases kind with
    | otherOp =>
      simp [walkStep, legalize_inst, ih, List.filter_cons]
    | isplitK src =>
      cases src <;> simp [walkStep, legalize_inst, ih, List.filter_cons]

/-- Membership in an ordered-set insertion. -/
theorem mem_btreeInsert (x : Nat) :
    ∀ (l : List Nat) (i : Nat), i ∈ btreeInsert x l ↔ i = x ∨ i ∈ l := by
  intro l
  induction l with
  | nil =>
    intro i
    simp [btreeInsert]
  | cons y ys ih =>
    intro i
    rw [btreeInsert]
    by_cases h1 : x < y
    · simp [h1]
    · rw [if_neg h1]
      by_cases h2 : x = y
      · subst h2
        simp
      · rw [if_neg h2]
        simp [ih]
        tauto

/-- Ordered-set insertion preserves strict sortedness. -/
theorem sorted_btreeInsert (x : Nat) :
    ∀ l : List Nat, l.Sorted (· < ·) → (btreeInsert x l).Sorted (· < ·) := by
  intro l
  induction l with
  | nil =>
    intro _
    simp [btreeInsert]
  | cons y ys ih =>
    intro h
    rw [List.sorted_cons] at h
    rw [btreeInsert]
    by_cases h1 : x < y
    · rw [if_pos h1]
      refine List.sorted_cons.mpr ⟨?_, List.sorted_cons.mpr h⟩
      intro b hb
      rcases List.mem_cons.mp hb with rfl | hb2
      · exact h1
      · exact lt_trans h1 (h.1 b hb2)
    · rw [if_neg h1]
      by_cases h2 : x = y
      · rw [if_pos h2]
        exact List.sorted_cons.mpr h
      · rw [if_neg h2]
        refine List.sorted_cons.mpr ⟨?_, ih h.2⟩
        intro b hb
        rcases (mem_btreeInsert x ys b).mp hb with rfl | hb2
        · omega
        · exact h.1 b hb2

/-- Membership in the pending set after a walk from any start state. -/
theorem walk_pending_mem (prog : List (Nat × InstKind)) :
    ∀ (st : WalkState) (i : Nat),
      i ∈ (prog.foldl walkStep st).pending_splits
        ↔ i ∈ st.pending_splits
          ∨ i ∈ (prog.filter (fun p => p.2 = .isplitK .otherInstResult)).map Prod.fst := by
  induction prog with
  | nil =>
    intro st i
    simp
  | cons p rest ih =>
    intro st i
    obtain ⟨j, kind⟩ := p
    cases kind with
    | otherOp =>
      simp [walkStep, legalize_inst, ih, List.filter_cons]
    | isplitK src =>
      cases src <;>
        simp [walkStep, legalize_inst, ih, List.filter_cons, mem_btreeInsert] <;>
        tauto

/-- The pending set stays strictly sorted through the walk. -/
theorem walk_pending_sorted (prog : List (Nat × InstKind)) :
    ∀ st : WalkState, st.pending_splits.Sorted (· < ·) →
      (prog.foldl walkStep st).pending_splits.Sorted (· < ·) := by
  induction prog with
  | nil =>
    intro st h
    exact h
  | cons p rest ih =>
    intro st h
    obtain ⟨i, kind⟩ := p
    cases kind with
    | otherOp => exact ih _ h
    | isplitK src =>
      cases src with
      | iconcatResult => exact ih _ h
      | ebbParam => exact ih _ h
      | otherInstResult => exact ih _ (sorted_btreeInsert i _ h)

/-- The second pass leaves nothing unresolved once every deferred isplit has
an iconcat-produced (or block-parameter) source. -/
theorem retryLeftover_eq_nil (after : Nat → ArgDef) :
    ∀ l : List Nat, (∀ i ∈ l, after i ≠ .otherInstResult) →
      retryLeftover after l = [] := by
  intro l
  induction l with
  | nil =>
    intro h
    rfl
  | cons i rest ih =>
    intro h
    have hi := h i (List.mem_cons_self i rest)
    have htail : ∀ x ∈ rest, after x ≠ .otherInstResult :=
      fun x hx => h x (List.mem_cons_of_mem i hx)
    cases hsrc : after i with
    | iconcatResult =>
      simp only [retryLeftover, hsrc, legalize_inst]
      exact ih htail
    | ebbParam =>
      simp only [retryLeftover, hsrc, legalize_inst]
      exact ih htail
    | otherInstResult => exact absurd hsrc hi

/-- C6 counterexample: the retry pass iterates the pending `BTreeSet` in
ascending instruction-id order, which is not the order first encountered:
walking instruction 5 before instruction 3 (both isplits with non-iconcat
sources) defers them in the order [5, 3], yet the retry visits [3, 5]. -/
theorem pending_splits_retry_order_not_encounter_order :
    retryOrder [(5, .isplitK .otherInstResult), (3, .isplitK .otherInstResult)] = [3, 5]
    ∧ (legalize_function_walk
        [(5, .isplitK .otherInstResult), (3, .isplitK .otherInstResult)]).deferred_order
      = [5, 3]
    ∧ ([3, 5] : List Nat) ≠ [5, 3] := by
  refine ⟨by decide, by decide, by decide⟩

/-- C6 (amended: re-attempts happen in ascending instruction-id order, the
iteration order of the pending ordered set, rather than in the order first
encountered; the set also prevents retrying an instruction deferred twice):
every isplit whose source is not produced by an iconcat is deferred, every
isplit whose source is an iconcat result (or a block parameter) is resolved
immediately, the second pass visits each deferred instruction exactly once
in ascending id order, and when by then every deferred isplit has an
iconcat-produced (or parameter) source, the retry resolves them all,
leaving zero leftover. -/
theorem pending_splits_two_phase_amended (prog : List (Nat × InstKind))
    (after : Nat → ArgDef)
    (hresolved : ∀ i ∈ retryOrder prog, after i ≠ .otherInstResult) :
    List.Sorted (· < ·) (retryOrder prog)
    ∧ (∀ i, i ∈ retryOrder prog ↔ i ∈ (legalize_function_walk prog).deferred_order)
    ∧ (legalize_function_walk prog).deferred_order
        = (prog.filter (fun p => p.2 = .isplitK .otherInstResult)).map Prod.fst
    ∧ (legalize_function_walk prog).resolved_now
        = (prog.filter (fun p => legalize_inst p.2 = .Legalized)).map Prod.fst
    ∧ retryLeftover after (retryOrder prog) = [] := by
  refine ⟨walk_pending_sorted prog ⟨[], [], []⟩ List.sorted_nil, ?_, ?_, ?_,
    retryLeftover_eq_nil after _ hresolved⟩
  · intro i
    simp [retryOrder, legalize_function_walk,
      walk_pending_mem prog ⟨[], [], []⟩ i, walk_deferred_order prog ⟨[], [], []⟩]
  · rw [legalize_function_walk, walk_deferred_order prog ⟨[], [], []⟩]
    simp
  · rw [legalize_function_walk, walk_resolved_now prog ⟨[], [], []⟩]
    simp

/-- C6 witness: instructions 5 and 3 (deferred isplits, encountered in that
order), 2 (isplit over an iconcat, resolved immediately) and 9 (an ordinary
instruction); at retry time every source is an iconcat result. -/
theorem pending_splits_two_phase_amended_witness :
    (∀ i ∈ retryOrder [(5, InstKind.isplitK .otherInstResult),
        (3, .isplitK .otherInstResult), (2, .isplitK .iconcatResult), (9, .otherOp)],
      (fun _ => ArgDef.iconcatResult) i ≠ ArgDef.otherInstResult) ∧
    (List.Sorted (· < ·) (retryOrder [(5, InstKind.isplitK .otherInstResult),
        (3, .isplitK .otherInstResult), (2, .isplitK .iconcatResult), (9, .otherOp)])
    ∧ (∀ i, i ∈ retryOrder [(5, InstKind.isplitK .otherInstResult),
          (3, .isplitK .otherInstResult), (2, .isplitK .iconcatResult), (9, .otherOp)]
        ↔ i ∈ (legalize_function_walk [(5, InstKind.isplitK .otherInstResult),
            (3, .isplitK .otherInstResult), (2, .isplitK .iconcatResult),
            (9, .otherOp)]).deferred_order)
    ∧ (legalize_function_walk [(5, InstKind.isplitK .otherInstResult),
          (3, .isplitK .otherInstResult), (2, .isplitK .iconcatResult),
          (9, .otherOp)]).deferred_order
        = (([(5, InstKind.isplitK .otherInstResult), (3, .isplitK .otherInstResult),
            (2, .isplitK .iconcatResult), (9, .otherOp)]).filter
            (fun p => p.2 = .isplitK .otherInstResult)).map Prod.fst
    ∧ (legalize_function_walk [(5, InstKind.isplitK .otherInstResult),
          (3, .isplitK .otherInstResult), (2, .isplitK .iconcatResult),
          (9, .otherOp)]).resolved_now
        = (([(5, InstKind.isplitK .otherInstResult), (3, .isplitK .otherInstResult),
            (2, .isplitK .iconcatResult), (9, .otherOp)]).filter
            (fun p => legalize_inst p.2 = .Legalized)).map Prod.fst
    ∧ retryLeftover (fun _ => ArgDef.iconcatResult)
        (retryOrder [(5, InstKind.isplitK .otherInstResult),
          (3, .isplitK .otherInstResult), (2, .isplitK .iconcatResult),
          (9, .otherOp)]) = []) :=
  ⟨by decide,
   pending_splits_two_phase_amended
     [(5, InstKind.isplitK .otherInstResult), (3, .isplitK .otherInstResult),
      (2, .isplitK .iconcatResult), (9, .otherOp)]
     (fun _ => ArgDef.iconcatResult) (by decide)⟩

end Cranelift
